import Mathlib

/-!
Verification of the OR-Set CRDT implementation in `src/crdt.h`
(HyperKuvid-Labs/crdt-orset-cpp).

The C++ class `ORSet` keeps
  * `replica_id : string` — fixed at construction,
  * `local_counter : uint64_t` — incremented on every `add` (64-bit
    unsigned arithmetic, so it wraps modulo 2^64),
  * `internal_set : set<pair<string, Tag>>` — the tagged-entry store,
  * `element_cache : unordered_set<string>` — the membership cache.

We embed the state as a structure over `Finset`s (the C++ containers are
mathematical sets: insertion of a present element is a no-op) and the
64-bit counter as a natural number reduced modulo `U64 = 2^64` exactly
where the C++ `++` wraps.
-/

set_option autoImplicit false

/-- Modulus of C++ `uint64_t` arithmetic, `2^64`. -/
def U64 : Nat := 2 ^ 64

/-- Model of `struct Tag { string replica_id; uint64_t counter; }` from `crdt.h`. -/
structure Tag where
  replica_id : String
  counter : Nat
deriving DecidableEq, Repr

/-- Replica state of `class ORSet` from `crdt.h`. -/
structure ORSet where
  replica_id : String
  local_counter : Nat
  internal_set : Finset (String × Tag)
  element_cache : Finset String
deriving DecidableEq

/-- Constructor `ORSet(const string& id) : replica_id(id), local_counter(0) {}` —
the containers default-construct empty. -/
def ORSet.init (id : String) : ORSet :=
  { replica_id := id, local_counter := 0, internal_set := ∅, element_cache := ∅ }

/-- The tag that the next `add` call will create:
`local_counter++; Tag tag{replica_id, local_counter};` — the increment is
64-bit, hence the reduction modulo `U64`. -/
def ORSet.nextTag (s : ORSet) : Tag :=
  { replica_id := s.replica_id, counter := (s.local_counter + 1) % U64 }

/-- Method `ORSet::add`: increment the counter, insert the tagged entry, insert
the element into the cache. -/
def ORSet.add (s : ORSet) (element : String) : ORSet :=
  { s with
    local_counter := (s.local_counter + 1) % U64
    internal_set := insert (element, s.nextTag) s.internal_set
    element_cache := insert element s.element_cache }

/-- Method `ORSet::remove`: collect `tags_to_remove` (all tags currently paired
with `element`), erase every `(element, t)` for `t` in it, recompute
whether the element still has an entry, and if not erase it from the
cache. -/
def ORSet.remove (s : ORSet) (element : String) : ORSet :=
  let tags_to_remove : Finset Tag :=
    (s.internal_set.filter (fun p => p.1 = element)).image Prod.snd
  let new_set : Finset (String × Tag) :=
    s.internal_set.filter (fun p => ¬(p.1 = element ∧ p.2 ∈ tags_to_remove))
  let still_exists : Prop := (new_set.filter (fun p => p.1 = element)).Nonempty
  { s with
    internal_set := new_set
    element_cache :=
      if still_exists then s.element_cache else s.element_cache.erase element }

/-- Method `ORSet::contains`: O(1) lookup in the element cache. -/
def ORSet.contains (s : ORSet) (element : String) : Bool :=
  element ∈ s.element_cache

/-- Method `ORSet::elements`: a snapshot copy of the element cache. -/
def ORSet.elements (s : ORSet) : Finset String :=
  s.element_cache

/-- Method `ORSet::merge`: union the other replica's entry store and element
cache into ours. -/
def ORSet.merge (s other : ORSet) : ORSet :=
  { s with
    internal_set := s.internal_set ∪ other.internal_set
    element_cache := s.element_cache ∪ other.element_cache }

/-- Method `ORSet::size`: number of distinct cached elements. -/
def ORSet.size (s : ORSet) : Nat :=
  s.element_cache.card

/-- Method `ORSet::internal_size`: number of tagged entries. -/
def ORSet.internal_size (s : ORSet) : Nat :=
  s.internal_set.card

/-- Method `ORSet::get_counter`. -/
def ORSet.get_counter (s : ORSet) : Nat :=
  s.local_counter

/-- Invariant I1 of the spec: the membership cache equals the set of
elements having at least one tagged entry in the store. -/
def I1 (s : ORSet) : Prop :=
  s.element_cache = s.internal_set.image Prod.fst

instance (s : ORSet) : Decidable (I1 s) := by
  unfold I1; infer_instance

/-- Single-replica operation alphabet: the mutating calls a client can make
on one `ORSet` instance. A `mergeOp` carries the snapshot of the other
replica that `ORSet::merge` consumes. -/
inductive Op where
  | addOp : String → Op
  | removeOp : String → Op
  | mergeOp : ORSet → Op
deriving DecidableEq

/-- Apply one operation to a replica. -/
def applyOp (s : ORSet) : Op → ORSet
  | Op.addOp x => s.add x
  | Op.removeOp x => s.remove x
  | Op.mergeOp t => s.merge t

/-- Apply a sequence of operations, left to right. -/
def applyOps (s : ORSet) (ops : List Op) : ORSet :=
  ops.foldl applyOp s

/-- Snapshots consumed by the `mergeOp`s of a sequence. -/
def mergeSnapshots (ops : List Op) : List ORSet :=
  ops.filterMap (fun o => match o with | Op.mergeOp t => some t | _ => none)

/-- Number of `addOp`s in a sequence. -/
def countAddOps (ops : List Op) : Nat :=
  ops.countP (fun o => match o with | Op.addOp _ => true | _ => false)

/-- Iterate `ORSet::add` of the same element `n` times. -/
def addIter (s : ORSet) (x : String) : Nat → ORSet
  | 0 => s
  | n + 1 => (addIter s x n).add x

/-- System-level operation alphabet over a list of replicas: `addS i x` and
`removeS i x` act on replica `i`; `mergeS i j` is `replica_i.merge(replica_j)`.
Out-of-range indices are no-ops. -/
inductive SOp where
  | addS : Nat → String → SOp
  | removeS : Nat → String → SOp
  | mergeS : Nat → Nat → SOp
deriving DecidableEq

/-- One system step. The state is the list of replicas together with the
log of `(element, tag)` pairs issued by the `add` calls performed so far
(the log is instrumentation: it records each add event and changes no
replica). -/
def stepS : List ORSet × List (String × Tag) → SOp →
    List ORSet × List (String × Tag)
  | (rs, log), SOp.addS i x =>
    match rs[i]? with
    | some r => (rs.set i (r.add x), log ++ [(x, r.nextTag)])
    | none => (rs, log)
  | (rs, log), SOp.removeS i x =>
    match rs[i]? with
    | some r => (rs.set i (r.remove x), log)
    | none => (rs, log)
  | (rs, log), SOp.mergeS i j =>
    match rs[i]?, rs[j]? with
    | some ri, some rj => (rs.set i (ri.merge rj), log)
    | _, _ => (rs, log)

/-- Run a system script, left to right. -/
def runS (st : List ORSet × List (String × Tag)) (script : List SOp) :
    List ORSet × List (String × Tag) :=
  script.foldl stepS st

/-- Number of `addS` steps of a script that target replica `i`. -/
def countAdds (script : List SOp) (i : Nat) : Nat :=
  script.countP (fun o => match o with | SOp.addS j _ => j == i | _ => false)

/-- Overflow headroom: every replica's counter plus the adds the script
still directs at it stays below `2^64`, so no counter wraps during the
run. -/
def AddsOK (rs : List ORSet) (script : List SOp) : Prop :=
  ∀ i r, rs[i]? = some r → r.local_counter + countAdds script i < U64

/-- Every logged tag is owned by the replica (identified by position) whose
`replica_id` it carries, and its counter is between 1 and that replica's
current `local_counter`. -/
def TagsOwned (rs : List ORSet) (log : List (String × Tag)) : Prop :=
  ∀ e ∈ log, ∃ (k : Nat) (r : ORSet), rs[k]? = some r ∧ e.2.replica_id = r.replica_id ∧
    1 ≤ e.2.counter ∧ e.2.counter ≤ r.local_counter

/-- Every tagged entry in every replica's store was issued by some add
call (is in the log). -/
def StoresLogged (rs : List ORSet) (log : List (String × Tag)) : Prop :=
  ∀ r ∈ rs, ∀ p ∈ r.internal_set, p ∈ log

/-- Inductive invariant for tag uniqueness: pairwise distinct replica ids,
no duplicate tag in the log, tag ownership, and stores contained in the
log. -/
def SysInv (rs : List ORSet) (log : List (String × Tag)) : Prop :=
  (rs.map ORSet.replica_id).Nodup ∧ (log.map Prod.snd).Nodup ∧
    TagsOwned rs log ∧ StoresLogged rs log

/-- Across the whole system, two stored entries sharing a tag agree on the
element (tags identify their entries). -/
def TagUnique (rs : List ORSet) : Prop :=
  ∀ r1 ∈ rs, ∀ r2 ∈ rs, ∀ p ∈ r1.internal_set, ∀ q ∈ r2.internal_set,
    p.2 = q.2 → p.1 = q.1

/-- Replica A of the C1 walkthrough after `A.add("apple")`. -/
def c1A1 : ORSet := (ORSet.init "A").add "apple"

/-- Replica B of the C1 walkthrough after `B.add("apple")`. -/
def c1B1 : ORSet := (ORSet.init "B").add "apple"

/-- After `A.merge(B)`. -/
def c1A2 : ORSet := c1A1.merge c1B1

/-- After `B.merge(A)` (A already merged). -/
def c1B2 : ORSet := c1B1.merge c1A2

/-- After `A.remove("apple")`. -/
def c1A3 : ORSet := c1A2.remove "apple"

/-- After the concurrent `B.add("apple")` (second tag). -/
def c1B3 : ORSet := c1B2.add "apple"

/-- After `B.merge(A)`. -/
def c1B4 : ORSet := c1B3.merge c1A3

/-- After the final `A.merge(B)`. -/
def c1A4 : ORSet := c1A3.merge c1B4

/-- Concrete single-replica history used to witness the C2 invariant
theorem: an add, a merge of a consistent snapshot, and a remove. -/
def c2Script : List Op :=
  [Op.addOp "a", Op.mergeOp ((ORSet.init "B").add "c"), Op.removeOp "a"]

/-- Concrete two-replica system script used to witness the C5 theorem. -/
def c5Script : List SOp :=
  [SOp.addS 0 "apple", SOp.addS 1 "apple", SOp.mergeS 0 1,
   SOp.removeS 0 "apple", SOp.addS 1 "apple", SOp.mergeS 1 0]

/-- Field-wise extensionality for `ORSet`. -/
theorem ORSet.ext' {a b : ORSet} (h1 : a.replica_id = b.replica_id)
    (h2 : a.local_counter = b.local_counter)
    (h3 : a.internal_set = b.internal_set)
    (h4 : a.element_cache = b.element_cache) : a = b := by
  cases a; cases b; simp_all

theorem ORSet.remove_replica_id (s : ORSet) (x : String) :
    (s.remove x).replica_id = s.replica_id := rfl

theorem ORSet.remove_local_counter (s : ORSet) (x : String) :
    (s.remove x).local_counter = s.local_counter := rfl

theorem ORSet.add_replica_id (s : ORSet) (x : String) :
    (s.add x).replica_id = s.replica_id := rfl

theorem ORSet.add_local_counter (s : ORSet) (x : String) :
    (s.add x).local_counter = (s.local_counter + 1) % U64 := rfl

theorem ORSet.merge_replica_id (s t : ORSet) :
    (s.merge t).replica_id = s.replica_id := rfl

theorem ORSet.merge_local_counter (s t : ORSet) :
    (s.merge t).local_counter = s.local_counter := rfl

theorem ORSet.get_counter_eq (s : ORSet) : s.get_counter = s.local_counter := rfl

/-- The erase loop of `ORSet::remove` deletes exactly the entries whose
element component is the removed element. -/
theorem ORSet.remove_internal_set (s : ORSet) (x : String) :
    (s.remove x).internal_set = s.internal_set.filter (fun p => ¬p.1 = x) := by
  ext p
  simp only [ORSet.remove, Finset.mem_filter]
  constructor
  · rintro ⟨hp, h⟩
    refine ⟨hp, fun hx => h ⟨hx, Finset.mem_image.2 ⟨p, Finset.mem_filter.2 ⟨hp, hx⟩, rfl⟩⟩⟩
  · rintro ⟨hp, h⟩
    exact ⟨hp, fun hc => h hc.1⟩

/-- The `still_exists` rescan of `ORSet::remove` never finds an entry, so
the cache always drops the element. -/
theorem ORSet.remove_element_cache (s : ORSet) (x : String) :
    (s.remove x).element_cache = s.element_cache.erase x := by
  simp only [ORSet.remove]
  rw [if_neg]
  rintro ⟨p, hp⟩
  simp only [Finset.mem_filter] at hp
  exact hp.1.2 ⟨hp.2, Finset.mem_image.2 ⟨p, Finset.mem_filter.2 ⟨hp.1.1, hp.2⟩, rfl⟩⟩

/-- A fresh replica satisfies I1. -/
theorem I1_init (id : String) : I1 (ORSet.init id) := by
  simp [I1, ORSet.init]

/-- `add` preserves I1. -/
theorem I1_add (s : ORSet) (x : String) (h : I1 s) : I1 (s.add x) := by
  unfold I1 at h ⊢
  simp [ORSet.add, Finset.image_insert, h]

/-- `remove` preserves I1. -/
theorem I1_remove (s : ORSet) (x : String) (h : I1 s) : I1 (s.remove x) := by
  unfold I1
  rw [ORSet.remove_element_cache, ORSet.remove_internal_set, h]
  ext y
  simp only [Finset.mem_erase, Finset.mem_image, Finset.mem_filter]
  constructor
  · rintro ⟨hy, p, hp, rfl⟩
    exact ⟨p, ⟨hp, hy⟩, rfl⟩
  · rintro ⟨p, ⟨hp, hne⟩, rfl⟩
    exact ⟨hne, p, hp, rfl⟩

/-- `merge` of two I1 states satisfies I1: the cache union matches the
store union. -/
theorem I1_merge (s t : ORSet) (hs : I1 s) (ht : I1 t) : I1 (s.merge t) := by
  simp only [I1, ORSet.merge, Finset.image_union]
  rw [hs, ht]

/-- C1: in the two-replica walkthrough `A.add("apple"); B.add("apple");
A.merge(B); B.merge(A)`, both replicas report `contains("apple") == true`
and `size() == 1`; after `A.remove("apple"); B.add("apple"); B.merge(A);
A.merge(B)`, both again report `contains("apple") == true` — the
concurrent second add survives the earlier remove (add-wins). -/
theorem C1_two_replica_walkthrough :
    c1A2.contains "apple" = true ∧ c1B2.contains "apple" = true ∧
    c1A2.size = 1 ∧ c1B2.size = 1 ∧
    c1A4.contains "apple" = true ∧ c1B4.contains "apple" = true := by
  decide

/-- Helper for C2: I1 is preserved along any operation sequence whose
merged snapshots all satisfy I1. -/
theorem I1_applyOps (ops : List Op) : ∀ s : ORSet, I1 s →
    (∀ t ∈ mergeSnapshots ops, I1 t) → I1 (applyOps s ops) := by
  induction ops with
  | nil => intro s hs _; exact hs
  | cons o ops ih =>
    intro s hs hm
    match o with
    | Op.addOp x =>
      exact ih (s.add x) (I1_add s x hs) (fun t ht => hm t ht)
    | Op.removeOp x =>
      exact ih (s.remove x) (I1_remove s x hs) (fun t ht => hm t ht)
    | Op.mergeOp t =>
      exact ih (s.merge t) (I1_merge s t hs (hm t (List.mem_cons_self t _)))
        (fun u hu => hm u (List.mem_cons_of_mem _ hu))

/-- C2: cache consistency. Any replica reachable from a fresh `ORSet` by
`add`, `remove`, and `merge` calls whose merged snapshots satisfy I1 keeps
its membership cache equal to the set of elements with at least one tagged
entry in the store. -/
theorem C2_cache_consistency (id : String) (ops : List Op)
    (h : ∀ t ∈ mergeSnapshots ops, I1 t) :
    I1 (applyOps (ORSet.init id) ops) :=
  I1_applyOps ops (ORSet.init id) (I1_init id) h

/-- Witness for C2 on a concrete history containing a merge. -/
theorem C2_witness :
    (∀ t ∈ mergeSnapshots c2Script, I1 t) ∧
      I1 (applyOps (ORSet.init "A") c2Script) :=
  ⟨by decide, C2_cache_consistency "A" c2Script (by decide)⟩

/-- C3: merge is idempotent — `A.merge(B); A.merge(B)` leaves the same
`elements()` and the same whole state as a single `A.merge(B)`. -/
theorem C3_merge_idempotent (A B : ORSet) :
    ((A.merge B).merge B).elements = (A.merge B).elements ∧
    (A.merge B).merge B = A.merge B := by
  have h : (A.merge B).merge B = A.merge B := by
    apply ORSet.ext'
    · rfl
    · rfl
    · simp [ORSet.merge, Finset.union_assoc]
    · simp [ORSet.merge, Finset.union_assoc]
  exact ⟨by rw [h], h⟩

/-- C4: merge is commutative and converges to the union — `A.merge(B)`
and `B.merge(A)` have the same `elements()`, equal to
`A.elements() ∪ B.elements()`, with the union of the entry stores
underneath. -/
theorem C4_merge_commutative (A B : ORSet) :
    (A.merge B).elements = (B.merge A).elements ∧
    (A.merge B).elements = A.elements ∪ B.elements ∧
    (A.merge B).internal_set = (B.merge A).internal_set ∧
    (A.merge B).internal_set = A.internal_set ∪ B.internal_set := by
  refine ⟨?_, rfl, ?_, rfl⟩ <;>
    simp [ORSet.merge, ORSet.elements, Finset.union_comm]

/-- C6: postcondition of `remove` — afterwards the store has no tagged
entry for the element, `contains` is false, and the element is not in
`elements()`. -/
theorem C6_remove_postcondition (s : ORSet) (x : String) (h : I1 s) :
    (∀ p ∈ (s.remove x).internal_set, ¬p.1 = x) ∧
    (s.remove x).contains x = false ∧
    x ∉ (s.remove x).elements := by
  refine ⟨?_, ?_, ?_⟩
  · intro p hp
    rw [ORSet.remove_internal_set] at hp
    exact (Finset.mem_filter.1 hp).2
  · unfold ORSet.contains
    simp [ORSet.remove_element_cache]
  · unfold ORSet.elements
    simp [ORSet.remove_element_cache]

/-- Witness for C6 on a concrete replica. -/
theorem C6_witness :
    I1 ((ORSet.init "A").add "x") ∧
      (((ORSet.init "A").add "x").remove "x").contains "x" = false :=
  ⟨by decide,
   (C6_remove_postcondition ((ORSet.init "A").add "x") "x" (by decide)).2.1⟩

/-- C7: removing an absent element is a no-op — the whole state (store,
cache, counter, id) is unchanged. -/
theorem C7_remove_absent_noop (s : ORSet) (x : String) (h1 : I1 s)
    (h2 : ∀ p ∈ s.internal_set, ¬p.1 = x) :
    s.remove x = s := by
  apply ORSet.ext'
  · rfl
  · rfl
  · rw [ORSet.remove_internal_set]
    exact Finset.filter_true_of_mem h2
  · rw [ORSet.remove_element_cache]
    apply Finset.erase_eq_of_not_mem
    rw [h1]
    intro hx
    rcases Finset.mem_image.1 hx with ⟨p, hp, hfst⟩
    exact h2 p hp hfst

/-- Witness for C7 on a concrete replica that never saw the element. -/
theorem C7_witness :
    I1 ((ORSet.init "A").add "y") ∧
    (∀ p ∈ ((ORSet.init "A").add "y").internal_set, ¬p.1 = "x") ∧
    ((ORSet.init "A").add "y").remove "x" = (ORSet.init "A").add "y" :=
  ⟨by decide, by decide,
   C7_remove_absent_noop ((ORSet.init "A").add "y") "x" (by decide) (by decide)⟩

/-- C9: empty-string elements are ordinary identifiers — after `add("")`,
`contains("")` is true and `""` is in `elements()` (all operations are
total functions of the embedding). -/
theorem C9_empty_string (s : ORSet) :
    (s.add "").contains "" = true ∧ "" ∈ (s.add "").elements := by
  constructor <;> simp [ORSet.add, ORSet.contains, ORSet.elements]

/-- C10: frame property of `remove` — entries of any other element, its
membership, the replica id and the counter are untouched. -/
theorem C10_remove_frame (s : ORSet) (x y : String) (h : x ≠ y) :
    (∀ t : Tag, (y, t) ∈ (s.remove x).internal_set ↔ (y, t) ∈ s.internal_set) ∧
    (s.remove x).contains y = s.contains y ∧
    (s.remove x).replica_id = s.replica_id ∧
    (s.remove x).local_counter = s.local_counter := by
  refine ⟨?_, ?_, rfl, rfl⟩
  · intro t
    rw [ORSet.remove_internal_set]
    simp [Finset.mem_filter, Ne.symm h]
  · unfold ORSet.contains
    apply decide_eq_decide.2
    rw [ORSet.remove_element_cache]
    simp [Finset.mem_erase, Ne.symm h]

/-- Witness for C10 on a concrete replica. -/
theorem C10_witness :
    ("x" : String) ≠ "y" ∧
      ((((ORSet.init "A").add "y").remove "x").contains "y" =
        ((ORSet.init "A").add "y").contains "y") :=
  ⟨by decide, (C10_remove_frame ((ORSet.init "A").add "y") "x" "y" (by decide)).2.1⟩

theorem ORSet.add_internal_set (s : ORSet) (x : String) :
    (s.add x).internal_set = insert (x, s.nextTag) s.internal_set := rfl

theorem ORSet.merge_internal_set (s t : ORSet) :
    (s.merge t).internal_set = s.internal_set ∪ t.internal_set := rfl

/-- Setting a position of a list to the value it already holds is the
identity. -/
theorem list_set_self {α : Type*} (l : List α) (i : Nat) (a : α)
    (h : l[i]? = some a) : l.set i a = l := by
  apply List.ext_getElem?
  intro k
  rcases eq_or_ne i k with rfl | hne
  · obtain ⟨hlt, _⟩ := List.getElem?_eq_some_iff.1 h
    rw [List.getElem?_set_self hlt, h]
  · rw [List.getElem?_set_ne hne]

/-- Updating position `i` with a value of the same image leaves the mapped
list unchanged. -/
theorem map_set_of_eq {α β : Type*} (l : List α) (i : Nat) (a b : α)
    (f : α → β) (h : l[i]? = some a) (hfb : f b = f a) :
    (l.set i b).map f = l.map f := by
  rw [List.map_set]
  apply list_set_self
  simp [List.getElem?_map, h, hfb]

/-- Tag ownership transfers to any replica list in which each position
keeps its id and does not decrease its counter. -/
theorem tagsOwned_mono (rs rs' : List ORSet) (log : List (String × Tag))
    (h : ∀ (k : Nat) (r : ORSet), rs[k]? = some r →
      ∃ r' : ORSet, rs'[k]? = some r' ∧ r'.replica_id = r.replica_id ∧
        r.local_counter ≤ r'.local_counter)
    (ht : TagsOwned rs log) : TagsOwned rs' log := by
  intro e he
  obtain ⟨k, r, hk, hid, h1, h2⟩ := ht e he
  obtain ⟨r', hk', hid', hle⟩ := h k r hk
  exact ⟨k, r', hk', hid.trans hid'.symm, h1, h2.trans hle⟩

/-- One position update (same id, counter not decreased) satisfies the
premise of `tagsOwned_mono`. -/
theorem set_reachable (rs : List ORSet) (i : Nat) (r0 r1 : ORSet)
    (hri : rs[i]? = some r0) (hid : r1.replica_id = r0.replica_id)
    (hle : r0.local_counter ≤ r1.local_counter) :
    ∀ (k : Nat) (r : ORSet), rs[k]? = some r →
      ∃ r' : ORSet, (rs.set i r1)[k]? = some r' ∧ r'.replica_id = r.replica_id ∧
        r.local_counter ≤ r'.local_counter := by
  intro k r hk
  by_cases hik : i = k
  · subst hik
    obtain ⟨hlt, _⟩ := List.getElem?_eq_some_iff.1 hri
    rw [hri] at hk
    injection hk with hk
    subst hk
    exact ⟨r1, List.getElem?_set_self hlt, hid, hle⟩
  · exact ⟨r, by rw [List.getElem?_set_ne hik]; exact hk, rfl, le_refl _⟩

/-- Store containment in the log survives one position update whose new
store is contained in the (possibly extended) log. -/
theorem storesLogged_set (rs : List ORSet) (log log' : List (String × Tag))
    (i : Nat) (r1 : ORSet) (hsub : log ⊆ log')
    (hr1 : ∀ p ∈ r1.internal_set, p ∈ log')
    (h : StoresLogged rs log) : StoresLogged (rs.set i r1) log' := by
  intro r hr p hp
  rcases List.mem_or_eq_of_mem_set hr with hmem | rfl
  · exact hsub (h r hmem p hp)
  · exact hr1 p hp

theorem countAdds_cons_addS_self (i : Nat) (x : String) (script : List SOp) :
    countAdds (SOp.addS i x :: script) i = countAdds script i + 1 := by
  simp [countAdds, List.countP_cons]

theorem countAdds_cons_addS_ne (i k : Nat) (x : String) (script : List SOp)
    (h : i ≠ k) : countAdds (SOp.addS i x :: script) k = countAdds script k := by
  simp [countAdds, List.countP_cons, h]

theorem countAdds_cons_removeS (i : Nat) (x : String) (script : List SOp)
    (k : Nat) : countAdds (SOp.removeS i x :: script) k = countAdds script k := by
  simp [countAdds, List.countP_cons]

theorem countAdds_cons_mergeS (i j : Nat) (script : List SOp) (k : Nat) :
    countAdds (SOp.mergeS i j :: script) k = countAdds script k := by
  simp [countAdds, List.countP_cons]

/-- A freshly issued tag is not yet in the log: its counter exceeds the
issuing replica's, and by id-uniqueness every logged tag with the same id
is bounded by that counter. -/
theorem log_fresh_tag (rs : List ORSet) (log : List (String × Tag)) (i : Nat)
    (r0 : ORSet) (hri : rs[i]? = some r0)
    (hnd : (rs.map ORSet.replica_id).Nodup)
    (hown : TagsOwned rs log)
    (hov : r0.local_counter + 1 < U64) :
    r0.nextTag ∉ log.map Prod.snd := by
  intro ht
  rcases List.mem_map.1 ht with ⟨e, he, hsnd⟩
  obtain ⟨k, r, hk, hid, h1, h2⟩ := hown e he
  have hide : e.2.replica_id = r0.replica_id := by
    rw [hsnd]; rfl
  have hidr : r.replica_id = r0.replica_id := by
    rw [← hid, hide]
  have hmemr : r ∈ rs := List.getElem?_mem hk
  have hmemr0 : r0 ∈ rs := List.getElem?_mem hri
  have hrr0 : r = r0 := List.inj_on_of_nodup_map hnd hmemr hmemr0 hidr
  have hcnt : e.2.counter = r0.local_counter + 1 := by
    rw [hsnd, ORSet.nextTag, Nat.mod_eq_of_lt hov]
  rw [hcnt, hrr0] at h2
  omega

/-- One system step preserves the invariant (the add case consumes the
overflow headroom of the script's first operation). -/
theorem stepS_inv (rs : List ORSet) (log : List (String × Tag)) (op : SOp)
    (script : List SOp)
    (hInv : SysInv rs log) (hOK : AddsOK rs (op :: script)) :
    SysInv (stepS (rs, log) op).1 (stepS (rs, log) op).2 := by
  obtain ⟨hnd, hlog, hown, hsl⟩ := hInv
  match op with
  | SOp.addS i x =>
    cases hri : rs[i]? with
    | none => simp only [stepS, hri]; exact ⟨hnd, hlog, hown, hsl⟩
    | some r0 =>
      simp only [stepS, hri]
      have hov : r0.local_counter + 1 < U64 := by
        have h0 := hOK i r0 hri
        rw [countAdds_cons_addS_self] at h0
        omega
      obtain ⟨hlt, _⟩ := List.getElem?_eq_some_iff.1 hri
      have hcnt' : (r0.add x).local_counter = r0.local_counter + 1 := by
        rw [ORSet.add_local_counter, Nat.mod_eq_of_lt hov]
      have hown' : TagsOwned (rs.set i (r0.add x)) log :=
        tagsOwned_mono rs _ log
          (set_reachable rs i r0 (r0.add x) hri rfl (by rw [hcnt']; omega)) hown
      refine ⟨?_, ?_, ?_, ?_⟩
      · rw [map_set_of_eq rs i r0 (r0.add x) ORSet.replica_id hri rfl]
        exact hnd
      · rw [List.map_append]
        refine List.Nodup.append hlog (by simp) ?_
        intro t ht hts
        have hts' : t = r0.nextTag := by simpa using hts
        subst hts'
        exact log_fresh_tag rs log i r0 hri hnd hown hov ht
      · intro e he
        rcases List.mem_append.1 he with hel | her
        · exact hown' e hel
        · have he' : e = (x, r0.nextTag) := by simpa using her
          subst he'
          refine ⟨i, r0.add x, List.getElem?_set_self hlt, rfl, ?_, ?_⟩
          · show 1 ≤ (r0.local_counter + 1) % U64
            rw [Nat.mod_eq_of_lt hov]
            omega
          · show (r0.local_counter + 1) % U64 ≤ (r0.add x).local_counter
            rw [ORSet.add_local_counter]
      · refine storesLogged_set rs log _ i (r0.add x)
          (List.subset_append_left _ _) ?_ hsl
        intro p hp
        rw [ORSet.add_internal_set] at hp
        rcases Finset.mem_insert.1 hp with rfl | hp0
        · exact List.mem_append.2 (Or.inr (by simp))
        · exact List.mem_append.2 (Or.inl (hsl r0 (List.getElem?_mem hri) p hp0))
  | SOp.removeS i x =>
    cases hri : rs[i]? with
    | none => simp only [stepS, hri]; exact ⟨hnd, hlog, hown, hsl⟩
    | some r0 =>
      simp only [stepS, hri]
      refine ⟨?_, hlog, ?_, ?_⟩
      · rw [map_set_of_eq rs i r0 (r0.remove x) ORSet.replica_id hri rfl]
        exact hnd
      · exact tagsOwned_mono rs _ log
          (set_reachable rs i r0 (r0.remove x) hri rfl
            (le_of_eq (ORSet.remove_local_counter r0 x).symm)) hown
      · refine storesLogged_set rs log log i (r0.remove x)
          (List.Subset.refl log) ?_ hsl
        intro p hp
        rw [ORSet.remove_internal_set] at hp
        exact hsl r0 (List.getElem?_mem hri) p (Finset.mem_filter.1 hp).1
  | SOp.mergeS i j =>
    cases hri : rs[i]? with
    | none =>
      cases hrj : rs[j]? <;> simp only [stepS, hri, hrj] <;>
        exact ⟨hnd, hlog, hown, hsl⟩
    | some ri =>
      cases hrj : rs[j]? with
      | none => simp only [stepS, hri, hrj]; exact ⟨hnd, hlog, hown, hsl⟩
      | some rj =>
        simp only [stepS, hri, hrj]
        refine ⟨?_, hlog, ?_, ?_⟩
        · rw [map_set_of_eq rs i ri (ri.merge rj) ORSet.replica_id hri rfl]
          exact hnd
        · exact tagsOwned_mono rs _ log
            (set_reachable rs i ri (ri.merge rj) hri rfl
              (le_of_eq (ORSet.merge_local_counter ri rj).symm)) hown
        · refine storesLogged_set rs log log i (ri.merge rj)
            (List.Subset.refl log) ?_ hsl
          intro p hp
          rw [ORSet.merge_internal_set] at hp
          rcases Finset.mem_union.1 hp with hpi | hpj
          · exact hsl ri (List.getElem?_mem hri) p hpi
          · exact hsl rj (List.getElem?_mem hrj) p hpj

/-- One system step preserves the overflow headroom for the rest of the
script. -/
theorem addsOK_step (rs : List ORSet) (log : List (String × Tag)) (op : SOp)
    (script : List SOp) (h : AddsOK rs (op :: script)) :
    AddsOK (stepS (rs, log) op).1 script := by
  have hle : ∀ (k : Nat), countAdds script k ≤ countAdds (op :: script) k := by
    intro k
    unfold countAdds
    rw [List.countP_cons]
    omega
  have hnoop : AddsOK rs script := by
    intro k r hk
    exact lt_of_le_of_lt (Nat.add_le_add_left (hle k) _) (h k r hk)
  match op with
  | SOp.addS i x =>
    cases hri : rs[i]? with
    | none => simp only [stepS, hri]; exact hnoop
    | some r0 =>
      simp only [stepS, hri]
      intro k r hk
      by_cases hik : i = k
      · subst hik
        obtain ⟨hlt, _⟩ := List.getElem?_eq_some_iff.1 hri
        rw [List.getElem?_set_self hlt] at hk
        injection hk with hk
        subst hk
        have h0 := h i r0 hri
        rw [countAdds_cons_addS_self] at h0
        have hm : (r0.local_counter + 1) % U64 ≤ r0.local_counter + 1 :=
          Nat.mod_le _ _
        rw [ORSet.add_local_counter]
        omega
      · rw [List.getElem?_set_ne hik] at hk
        have h0 := h k r hk
        rw [countAdds_cons_addS_ne i k x script hik] at h0
        exact h0
  | SOp.removeS i x =>
    cases hri : rs[i]? with
    | none => simp only [stepS, hri]; exact hnoop
    | some r0 =>
      simp only [stepS, hri]
      intro k r hk
      by_cases hik : i = k
      · subst hik
        obtain ⟨hlt, _⟩ := List.getElem?_eq_some_iff.1 hri
        rw [List.getElem?_set_self hlt] at hk
        injection hk with hk
        subst hk
        rw [ORSet.remove_local_counter]
        exact hnoop i r0 hri
      · rw [List.getElem?_set_ne hik] at hk
        exact hnoop k r hk
  | SOp.mergeS i j =>
    cases hri : rs[i]? with
    | none =>
      cases hrj : rs[j]? <;> simp only [stepS, hri, hrj] <;> exact hnoop
    | some ri =>
      cases hrj : rs[j]? with
      | none => simp only [stepS, hri, hrj]; exact hnoop
      | some rj =>
        simp only [stepS, hri, hrj]
        intro k r hk
        by_cases hik : i = k
        · subst hik
          obtain ⟨hlt, _⟩ := List.getElem?_eq_some_iff.1 hri
          rw [List.getElem?_set_self hlt] at hk
          injection hk with hk
          subst hk
          rw [ORSet.merge_local_counter]
          exact hnoop i ri hri
        · rw [List.getElem?_set_ne hik] at hk
          exact hnoop k r hk

/-- The invariant holds after running any script within its overflow
headroom. -/
theorem runS_inv (script : List SOp) : ∀ (rs : List ORSet)
    (log : List (String × Tag)), SysInv rs log → AddsOK rs script →
    SysInv (runS (rs, log) script).1 (runS (rs, log) script).2 := by
  induction script with
  | nil => intro rs log h _; exact h
  | cons op script ih =>
    intro rs log h hOK
    have hstep := stepS_inv rs log op script h hOK
    have hOK' := addsOK_step rs log op script hOK
    have heq : runS (rs, log) (op :: script) =
        runS ((stepS (rs, log) op).1, (stepS (rs, log) op).2) script := rfl
    rw [heq]
    exact ih _ _ hstep hOK'

/-- The invariant yields system-wide tag functionality: entries of any two
replicas sharing a tag carry the same element. -/
theorem sysInv_tagUnique (rs : List ORSet) (log : List (String × Tag))
    (h : SysInv rs log) : TagUnique rs := by
  obtain ⟨hnd, hlog, hown, hsl⟩ := h
  intro r1 hr1 r2 hr2 p hp q hq htag
  have hpl : p ∈ log := hsl r1 hr1 p hp
  have hql : q ∈ log := hsl r2 hr2 q hq
  have hpq : p = q := List.inj_on_of_nodup_map hlog hpl hql htag
  rw [hpq]

/-- C5 (amended): with pairwise distinct replica ids and fewer than `2^64`
`add` calls directed at each replica, no two add calls issue the same tag
(the issued-tag log is duplicate-free) and no two stored entries anywhere
share a tag with different elements. -/
theorem C5_no_duplicate_tags (ids : List String) (script : List SOp)
    (hids : ids.Nodup)
    (hadds : ∀ i < ids.length, countAdds script i < U64) :
    ((runS (ids.map ORSet.init, []) script).2.map Prod.snd).Nodup ∧
    TagUnique (runS (ids.map ORSet.init, []) script).1 := by
  have hInv : SysInv (ids.map ORSet.init) [] := by
    refine ⟨?_, by simp, ?_, ?_⟩
    · have hmm : (ids.map ORSet.init).map ORSet.replica_id = ids := by
        rw [List.map_map]
        have hcomp : ORSet.replica_id ∘ ORSet.init = id := funext (fun a => rfl)
        rw [hcomp, List.map_id]
      rw [hmm]
      exact hids
    · intro e he
      simp at he
    · intro r hr p hp
      rcases List.mem_map.1 hr with ⟨a, ha, rfl⟩
      exact absurd hp (Finset.not_mem_empty p)
  have hOK : AddsOK (ids.map ORSet.init) script := by
    intro i r hr
    rw [List.getElem?_map] at hr
    cases hi : ids[i]? with
    | none => rw [hi] at hr; cases hr
    | some a =>
      rw [hi] at hr
      injection hr with hr
      subst hr
      obtain ⟨hlt, _⟩ := List.getElem?_eq_some_iff.1 hi
      have hb := hadds i hlt
      show 0 + countAdds script i < U64
      omega
  obtain ⟨hnd, hlog, hown, hsl⟩ := runS_inv script _ _ hInv hOK
  exact ⟨hlog, sysInv_tagUnique _ _ ⟨hnd, hlog, hown, hsl⟩⟩

/-- Witness for C5 on a concrete two-replica script with concurrent adds,
a remove and merges. -/
theorem C5_witness :
    (["A", "B"] : List String).Nodup ∧
    (∀ i < (["A", "B"] : List String).length, countAdds c5Script i < U64) ∧
    (((runS ((["A", "B"] : List String).map ORSet.init, []) c5Script).2.map
        Prod.snd).Nodup ∧
      TagUnique (runS ((["A", "B"] : List String).map ORSet.init, [])
        c5Script).1) :=
  ⟨by decide, by decide,
   C5_no_duplicate_tags ["A", "B"] c5Script (by decide) (by decide)⟩

/-- Counters after `n` iterated adds on a fresh replica: `n % 2^64`. -/
theorem addIter_local_counter (id x : String) : ∀ n : Nat,
    (addIter (ORSet.init id) x n).local_counter = n % U64 := by
  intro n
  induction n with
  | zero => simp [addIter, ORSet.init, Nat.zero_mod]
  | succ n ih =>
    show ((addIter (ORSet.init id) x n).add x).local_counter = (n + 1) % U64
    rw [ORSet.add_local_counter, ih, Nat.mod_add_mod]

/-- Iterated adds do not change the replica id. -/
theorem addIter_replica_id (s : ORSet) (x : String) : ∀ n : Nat,
    (addIter s x n).replica_id = s.replica_id := by
  intro n
  induction n with
  | zero => rfl
  | succ n ih =>
    show ((addIter s x n).add x).replica_id = s.replica_id
    rw [ORSet.add_replica_id, ih]

/-- The entry of the very first add, `(x, (id, 1))`, stays in the store
through any further adds of `x`. -/
theorem addIter_mem_first (id x : String) : ∀ n : Nat,
    (x, Tag.mk id 1) ∈ (addIter (ORSet.init id) x (n + 1)).internal_set := by
  intro n
  induction n with
  | zero =>
    show (x, Tag.mk id 1) ∈ ((ORSet.init id).add x).internal_set
    rw [ORSet.add_internal_set]
    have h1 : (ORSet.init id).nextTag = Tag.mk id 1 := by
      unfold ORSet.nextTag ORSet.init
      have : (0 + 1) % U64 = 1 := Nat.mod_eq_of_lt (by norm_num [U64])
      simp [this]
    rw [h1]
    exact Finset.mem_insert_self _ _
  | succ n ih =>
    show (x, Tag.mk id 1) ∈ ((addIter (ORSet.init id) x (n + 1)).add x).internal_set
    rw [ORSet.add_internal_set]
    exact Finset.mem_insert_of_mem ih


/-- Tag collision after counter wraparound, stated symbolically: when `n`
is a positive multiple of `2^64`, after `n` adds of `x` on a fresh replica
and one further add of `y`, the store absorbs both `(x, (id, 1))` and
`(y, (id, 1))` under `insert` — i.e. it contains both entries
(`Finset.insert_eq_self`). -/
theorem addIter_tag_collision (id x y : String) (n : Nat)
    (hn : n % U64 = 0) (h1 : 1 ≤ n) :
    insert (x, Tag.mk id 1) ((addIter (ORSet.init id) x n).add y).internal_set =
      ((addIter (ORSet.init id) x n).add y).internal_set ∧
    insert (y, Tag.mk id 1) ((addIter (ORSet.init id) x n).add y).internal_set =
      ((addIter (ORSet.init id) x n).add y).internal_set := by
  have hnext : (addIter (ORSet.init id) x n).nextTag = Tag.mk id 1 := by
    unfold ORSet.nextTag
    rw [addIter_local_counter, addIter_replica_id, hn]
    have hmod : (0 + 1) % U64 = 1 := Nat.mod_eq_of_lt (by norm_num [U64])
    simp [hmod, ORSet.init]
  rw [Finset.insert_eq_self, Finset.insert_eq_self]
  constructor
  · rw [ORSet.add_internal_set]
    apply Finset.mem_insert_of_mem
    obtain ⟨m, rfl⟩ : ∃ m, n = m + 1 := ⟨n - 1, by omega⟩
    exact addIter_mem_first id x m
  · rw [ORSet.add_internal_set, hnext]
    exact Finset.mem_insert_self _ _

/-- Counterexample to C5 as stated: with unbounded histories the 64-bit
counter wraps. On replica "A", the first add call and the `2^64 + 1`-st
add call both issue the tag `("A", 1)`: after `2^64` adds of "x" and one
add of "y", the single store contains both `("x", ("A", 1))` and
`("y", ("A", 1))` — two tagged entries sharing one tag with different
elements. Containment is phrased as `insert p s = s`
(`Finset.insert_eq_self`). -/
theorem C5_counterexample :
    insert ("x", Tag.mk "A" 1)
        ((addIter (ORSet.init "A") "x" U64).add "y").internal_set =
      ((addIter (ORSet.init "A") "x" U64).add "y").internal_set ∧
    insert ("y", Tag.mk "A" 1)
        ((addIter (ORSet.init "A") "x" U64).add "y").internal_set =
      ((addIter (ORSet.init "A") "x" U64).add "y").internal_set ∧
    ("x" : String) ≠ "y" :=
  ⟨(addIter_tag_collision "A" "x" "y" U64 (Nat.mod_self U64)
      (by norm_num [U64])).1,
   (addIter_tag_collision "A" "x" "y" U64 (Nat.mod_self U64)
      (by norm_num [U64])).2,
   by decide⟩

/-- Counter after a single-replica operation sequence: the adds accumulate
modulo `2^64`, starting from any in-range counter. -/
theorem applyOps_local_counter (ops : List Op) : ∀ s : ORSet,
    s.local_counter < U64 →
    (applyOps s ops).local_counter = (s.local_counter + countAddOps ops) % U64 := by
  induction ops with
  | nil =>
    intro s hs
    show s.local_counter = (s.local_counter + countAddOps []) % U64
    have h0 : countAddOps [] = 0 := rfl
    rw [h0, Nat.add_zero, Nat.mod_eq_of_lt hs]
  | cons o ops ih =>
    intro s hs
    match o with
    | Op.addOp x =>
      have hlt : (s.add x).local_counter < U64 := by
        rw [ORSet.add_local_counter]
        exact Nat.mod_lt _ (by norm_num [U64])
      have hc : countAddOps (Op.addOp x :: ops) = countAddOps ops + 1 := by
        simp [countAddOps, List.countP_cons]
      show (applyOps (s.add x) ops).local_counter = _
      rw [ih (s.add x) hlt, ORSet.add_local_counter, Nat.mod_add_mod, hc]
      congr 1
      omega
    | Op.removeOp x =>
      have hlt : (s.remove x).local_counter < U64 := by
        rw [ORSet.remove_local_counter]
        exact hs
      have hc : countAddOps (Op.removeOp x :: ops) = countAddOps ops := by
        simp [countAddOps, List.countP_cons]
      show (applyOps (s.remove x) ops).local_counter = _
      rw [ih (s.remove x) hlt, ORSet.remove_local_counter, hc]
    | Op.mergeOp t =>
      have hlt : (s.merge t).local_counter < U64 := by
        rw [ORSet.merge_local_counter]
        exact hs
      have hc : countAddOps (Op.mergeOp t :: ops) = countAddOps ops := by
        simp [countAddOps, List.countP_cons]
      show (applyOps (s.merge t) ops).local_counter = _
      rw [ih (s.merge t) hlt, ORSet.merge_local_counter, hc]

/-- C8 (amended): a fresh replica's counter is 0; `add` sets the counter
to its successor modulo `2^64` — an increase by exactly 1 whenever no
wraparound occurs; `remove` and `merge` (and the pure queries, which in
this embedding are functions of the state) leave it unchanged; and after
any operation sequence on a fresh replica `get_counter()` returns the
number of adds modulo `2^64`. -/
theorem C8_counter_evolution :
    (∀ id : String, (ORSet.init id).get_counter = 0) ∧
    (∀ (s : ORSet) (x : String),
      (s.add x).get_counter = (s.get_counter + 1) % U64) ∧
    (∀ (s : ORSet) (x : String), s.get_counter + 1 < U64 →
      (s.add x).get_counter = s.get_counter + 1) ∧
    (∀ (s : ORSet) (x : String), (s.remove x).get_counter = s.get_counter) ∧
    (∀ s t : ORSet, (s.merge t).get_counter = s.get_counter) ∧
    (∀ (id : String) (ops : List Op),
      (applyOps (ORSet.init id) ops).get_counter = countAddOps ops % U64) := by
  refine ⟨fun id => rfl, fun s x => rfl, ?_, fun s x => rfl, fun s t => rfl, ?_⟩
  · intro s x h
    show (s.local_counter + 1) % U64 = s.local_counter + 1
    exact Nat.mod_eq_of_lt h
  · intro id ops
    show (applyOps (ORSet.init id) ops).local_counter = countAddOps ops % U64
    rw [applyOps_local_counter ops (ORSet.init id) (by norm_num [ORSet.init, U64])]
    show (0 + countAddOps ops) % U64 = countAddOps ops % U64
    rw [Nat.zero_add]

/-- Witness for C8 on a fresh replica: the first add increases the counter
from 0 to 1. -/
theorem C8_witness :
    (ORSet.init "A").get_counter + 1 < U64 ∧
      ((ORSet.init "A").add "x").get_counter = (ORSet.init "A").get_counter + 1 :=
  ⟨by norm_num [ORSet.init, ORSet.get_counter, U64],
   C8_counter_evolution.2.2.1 (ORSet.init "A") "x"
     (by norm_num [ORSet.init, ORSet.get_counter, U64])⟩

/-- Counterexample to C8 as stated: after `2^64` add calls on a fresh
replica, `get_counter()` returns 0, not `2^64` — the `uint64_t` counter
wraps, so the `2^64`-th add does not increase the counter by 1. -/
theorem C8_counterexample :
    (addIter (ORSet.init "A") "x" U64).get_counter = 0 ∧ (0 : Nat) ≠ U64 := by
  constructor
  · rw [ORSet.get_counter_eq, addIter_local_counter]
    exact Nat.mod_self U64
  · norm_num [U64]
